import Mathlib

set_option autoImplicit false

namespace BiosimSpec

/-! Shallow embedding of the biosim wiring panel (frontend source file
`WiringPanel.tsx`) and of the spec-level simulation core.  JavaScript
strings are modelled as `List Char`; JSON values as the inductive `JVal`
below; fallible JavaScript code (functions that `throw`) as `Except String`. -/

/-- Result of the frontend reference parser: the module alias and the port
text after the first dot, mirroring the object literal returned by the
TypeScript function `parseRef` in the wiring panel. -/
structure RefParts where
  module : List Char
  port : List Char
  deriving DecidableEq, Repr

/-- Models `ref.indexOf('.')` from JavaScript: index of the first dot,
`-1` when absent. -/
def indexOfDot : List Char → Int
  | [] => -1
  | c :: rest =>
      if c = '.' then 0
      else
        let r := indexOfDot rest
        if r < 0 then -1 else r + 1

/-- Embedding of `parseRef` from the wiring panel: split the reference on
the first `.`; return `null` (here `none`) when the dot is missing, first,
or last (`idx <= 0 || idx >= ref.length - 1`). -/
def parseRef (ref : List Char) : Option RefParts :=
  let idx := indexOfDot ref
  if idx ≤ 0 ∨ (ref.length : Int) - 1 ≤ idx then none
  else some ⟨ref.take idx.toNat, ref.drop (idx.toNat + 1)⟩

/-- Model of the JSON/JavaScript values handled by the wiring panel
(`unknown` in the TypeScript source). -/
inductive JVal where
  | null
  | bool (b : Bool)
  | num (n : Int)
  | str (s : List Char)
  | arr (elems : List JVal)
  | obj (fields : List (List Char × JVal))

/-- JavaScript truthiness, as used by the guard `entry &&` in
`normalizeWiring`. -/
def jsTruthy : JVal → Bool
  | .null => false
  | .bool b => b
  | .num n => n != 0
  | .str s => !s.isEmpty
  | .arr _ => true
  | .obj _ => true

/-- Whether `typeof v === 'object'` holds in JavaScript: true for plain
objects, arrays and null. -/
def jsTypeofObject : JVal → Bool
  | .null => true
  | .arr _ => true
  | .obj _ => true
  | _ => false

/-- First-match field lookup on an object literal. -/
def lookupField : List (List Char × JVal) → List Char → Option JVal
  | [], _ => none
  | (k', v) :: rest, k => if k' = k then some v else lookupField rest k

/-- Property access `v[k]`: `none` models JavaScript `undefined`. -/
def jsGet (v : JVal) (k : List Char) : Option JVal :=
  match v with
  | .obj fields => lookupField fields k
  | _ => none

/-- Embedding of `normalizeWiring`: throws `Wiring must be a JSON array.`
unless the value is an array, then keeps exactly the entries passing
`entry && typeof entry === 'object'`. -/
def normalizeWiring (raw : JVal) : Except String (List JVal) :=
  match raw with
  | .arr elems => .ok (elems.filter (fun e => jsTruthy e && jsTypeofObject e))
  | _ => .error "Wiring must be a JSON array."

/-- The fields of a React Flow edge that the wiring panel reads and
writes; `type` and `style` are constants in the source and carry no
information.  An absent (`null`/`undefined`) handle is modelled by the
empty string, which is equally falsy in the `edgesToWiring` guard. -/
structure EdgeT where
  id : List Char
  source : List Char
  sourceHandle : List Char
  target : List Char
  targetHandle : List Char
  deriving DecidableEq, Repr

/-- `typeof entry.from === 'string' ? entry.from : ''`. -/
def entryFrom (e : JVal) : List Char :=
  match jsGet e ("from".toList) with
  | some (.str s) => s
  | _ => []

/-- The nullish coalescing `entry.to ?? entry.targets`. -/
def entryDstRaw (e : JVal) : Option JVal :=
  match jsGet e ("to".toList) with
  | some .null => jsGet e ("targets".toList)
  | none => jsGet e ("targets".toList)
  | some v => some v

/-- `typeof raw === 'string' ? [raw] : Array.isArray(raw) ? raw : []`. -/
def entryDstRefs (e : JVal) : List JVal :=
  match entryDstRaw e with
  | some (.str s) => [.str s]
  | some (.arr xs) => xs
  | _ => []

/-- The edge id template `w-(edgeSeq)-(srcRef)->(dstRef)`. -/
def mkEdgeId (seq : Nat) (srcRef dstRef : List Char) : List Char :=
  "w-".toList ++ (Nat.repr seq).toList ++ "-".toList ++ srcRef
    ++ "->".toList ++ dstRef

/-- The inner destination loop shared by `wiringToEdges` and
`wiringToFlow`: builds one edge per string destination reference that
parses, threading the `edgeSeq` counter, silently skipping the rest. -/
def dstEdges (src : RefParts) (srcRef : List Char) (seq : Nat) :
    List JVal → Nat × List EdgeT
  | [] => (seq, [])
  | .str dstRef :: rest =>
      (match parseRef dstRef with
      | none => dstEdges src srcRef seq rest
      | some dst =>
          let e : EdgeT := ⟨mkEdgeId (seq + 1) srcRef dstRef,
            src.module, src.port, dst.module, dst.port⟩
          let r := dstEdges src srcRef (seq + 1) rest
          (r.1, e :: r.2))
  | _ :: rest => dstEdges src srcRef seq rest

/-- The outer entry loop of `wiringToEdges`: entries whose `from`
reference fails to parse are silently skipped (`if (!src) continue`). -/
def wiringEdgesLoop (seq : Nat) : List JVal → List EdgeT
  | [] => []
  | entry :: rest =>
      match parseRef (entryFrom entry) with
      | none => wiringEdgesLoop seq rest
      | some src =>
          let r := dstEdges src (entryFrom entry) seq (entryDstRefs entry)
          r.2 ++ wiringEdgesLoop r.1 rest

/-- Embedding of `wiringToEdges`: normalize, then walk the entries
building edges. -/
def wiringToEdges (rawWiring : JVal) : Except String (List EdgeT) :=
  match normalizeWiring rawWiring with
  | .error e => .error e
  | .ok wiring => .ok (wiringEdgesLoop 0 wiring)

/-- One output entry of `edgesToWiring`; `from_` and `to_` model the JSON
fields named `from` and `to` (both Lean keywords). -/
structure WiringOut where
  from_ : List Char
  to_ : List (List Char)
  deriving DecidableEq, Repr

/-- One insertion into the JS `Map<string, Set<string>>` of
`edgesToWiring`: keys keep first-insertion order, and a value is added to
a key's set only when not already present. -/
def insertGrouped (k v : List Char) :
    List (List Char × List (List Char)) → List (List Char × List (List Char))
  | [] => [(k, [v])]
  | (k', vs) :: rest =>
      if k' = k then (k', if v ∈ vs then vs else vs ++ [v]) :: rest
      else (k', vs) :: insertGrouped k v rest

/-- One iteration of the grouping loop of `edgesToWiring`: edges with a
falsy source or target handle are skipped, the others are keyed by
`(edge.source).(edge.sourceHandle)`. -/
def groupStep (acc : List (List Char × List (List Char))) (e : EdgeT) :
    List (List Char × List (List Char)) :=
  if e.sourceHandle.isEmpty || e.targetHandle.isEmpty then acc
  else insertGrouped (e.source ++ '.' :: e.sourceHandle)
    (e.target ++ '.' :: e.targetHandle) acc

/-- The grouping loop of `edgesToWiring` over the JS Map. -/
def groupEdges (edges : List EdgeT) : List (List Char × List (List Char)) :=
  edges.foldl groupStep []

/-- Embedding of `edgesToWiring`: group the edges in the Map, sort the
(key, set) pairs by the key comparator (`localeCompare`, modelled as the
lexicographic order on code points), and sort each target set. -/
def edgesToWiring (edges : List EdgeT) : List WiringOut :=
  (List.insertionSort (fun a b => a.1 ≤ b.1) (groupEdges edges)).map
    (fun g => ⟨g.1, List.insertionSort (· ≤ ·) g.2⟩)

/-- A non-null JavaScript object in the sense of claim C10:
`typeof e === 'object' && e !== null`, i.e. a plain object or an array. -/
def isNonNullObject : JVal → Bool
  | .arr _ => true
  | .obj _ => true
  | _ => false

/-- The keys of the grouped Map, in insertion order. -/
def keysOf (g : List (List Char × List (List Char))) : List (List Char) :=
  g.map (·.1)

/-- Membership of a (key, value) pair in the grouped Map. -/
def memGrouped (k v : List Char) (g : List (List Char × List (List Char))) : Prop :=
  ∃ vs, (k, vs) ∈ g ∧ v ∈ vs

instance : IsTotal (List Char × List (List Char)) (fun a b => a.1 ≤ b.1) :=
  ⟨fun a b => le_total a.1 b.1⟩

instance : IsTrans (List Char × List (List Char)) (fun a b => a.1 ≤ b.1) :=
  ⟨fun _ _ _ h1 h2 => le_trans h1 h2⟩

/-- JSON string quoting as done by `JSON.stringify` (escaping of the
quote and backslash characters; control-character escapes never occur in
the panel's references and are not modelled). -/
def jsonQuote (s : List Char) : List Char :=
  '"' :: (s.flatMap (fun c => if c = '"' ∨ c = '\\' then ['\\', c] else [c])) ++ ['"']

/-- Comma/newline joining used by the pretty printer. -/
def joinSep (sep : List Char) : List (List Char) → List Char
  | [] => []
  | [x] => x
  | x :: xs => x ++ sep ++ joinSep sep xs

/-- A run of spaces, for `JSON.stringify`'s two-space indentation. -/
def indentN (n : Nat) : List Char := List.replicate n ' '

/-- The target array of one entry, rendered at nesting depth two. -/
def stringifyTargets (ts : List (List Char)) : List Char :=
  match ts with
  | [] => "[]".toList
  | _ =>
      "[\n".toList ++
      joinSep ",\n".toList (ts.map (fun t => indentN 6 ++ jsonQuote t)) ++
      "\n".toList ++ indentN 4 ++ "]".toList

/-- Models the call `JSON.stringify(wiring, null, 2)` on the value
produced by `edgesToWiring`. -/
def stringifyWiring (w : List WiringOut) : List Char :=
  match w with
  | [] => "[]".toList
  | _ =>
      "[\n".toList ++
      joinSep ",\n".toList (w.map (fun entry =>
        indentN 2 ++ "\x7b\n".toList ++
        indentN 4 ++ "\"from\": ".toList ++ jsonQuote entry.from_ ++ ",\n".toList ++
        indentN 4 ++ "\"to\": ".toList ++ stringifyTargets entry.to_ ++ "\n".toList ++
        indentN 2 ++ "\x7d".toList)) ++
      "\n]".toList

/-- The pieces of the WiringPanel React state that `applyRawJson`
touches.  `stored` is the localStorage record for the panel's storage
key; it keeps only the wiring text (the `updatedAt` wall-clock timestamp
is outside the model). -/
structure PanelState where
  wiring : List Char
  parseError : Option (List Char)
  showRaw : Bool
  isExpanded : Bool
  lastApplied : List Char
  stored : Option (List Char)
  deriving DecidableEq, Repr

/-- Embedding of `applyRawJson`.  The result of the `JSON.parse` call on
the raw draft is passed in as an `Except` (a JavaScript parse exception
carries its message); a throw from `wiringToEdges` is caught by the same
`catch` block.  On success the normalized draft is serialized, applied to
the wiring control, and mirrored to localStorage. -/
def applyRawJson (parsedDraft : Except (List Char) JVal) (st : PanelState) :
    PanelState :=
  match parsedDraft with
  | .error msg =>
      { st with parseError := some msg, isExpanded := true, showRaw := true }
  | .ok parsed =>
      match wiringToEdges parsed with
      | .error msg =>
          { st with
            parseError := some msg.toList
            isExpanded := true
            showRaw := true }
      | .ok edges =>
          let nextText := stringifyWiring (edgesToWiring edges)
          { st with
            wiring := nextText
            lastApplied := nextText
            parseError := none
            showRaw := false
            stored := some nextText }

/-- A STEP event payload of the fixed-step solver: zero-based step index
and accumulated simulated time. -/
structure StepEvent where
  i : Nat
  t : ℚ
  deriving DecidableEq, Repr

/-- The summary returned by `simulate`. -/
structure SimSummary where
  steps : Nat
  time : ℚ
  deriving DecidableEq, Repr

/-- Modelled from the spec: the FixedStepSolver implementation is not
under src/ (only its API documentation is).  Per the docs, each step
advances `t += dt` and emits a STEP event with payload `(i, t)`; real
arithmetic is modelled exactly over ℚ. -/
def fixedStepRun : Nat → ℚ → ℚ → Nat → List StepEvent
  | 0, _, _, _ => []
  | n + 1, dt, t, i => ⟨i, t + dt⟩ :: fixedStepRun n dt (t + dt) (i + 1)

/-- Modelled from the spec: the final accumulated time of the fixed-step
loop. -/
def fixedStepFinalTime : Nat → ℚ → ℚ → ℚ
  | 0, _, t => t
  | n + 1, dt, t => fixedStepFinalTime n dt (t + dt)

/-- Modelled from the spec: `FixedStepSolver().simulate(steps, dt, emit)`
returns the emitted STEP events in order together with the summary
`(steps, time)`. -/
def FixedStepSolver.simulate (steps : Nat) (dt : ℚ) :
    List StepEvent × SimSummary :=
  (fixedStepRun steps dt 0 0, ⟨steps, fixedStepFinalTime steps dt 0⟩)

/-- The closed enumeration of World lifecycle events. -/
inductive BioWorldEvent where
  | LOADED
  | BEFORE_SIMULATION
  | STEP
  | AFTER_SIMULATION
  deriving DecidableEq, Repr

/-- Modelled from the spec: the BioWorld implementation is not under src/
(only its API documentation is).  The world keeps the `_loaded_emitted`
flag. -/
structure WorldState where
  loadedEmitted : Bool
  deriving DecidableEq, Repr

/-- Modelled from the spec: one `simulate` call emits `LOADED` only when
the flag is still unset (and then sets it), followed by
`BEFORE_SIMULATION`, one `STEP` per solver step, and
`AFTER_SIMULATION`. -/
def BioWorld.simulate (st : WorldState) (steps : Nat) :
    WorldState × List BioWorldEvent :=
  (⟨true⟩,
    (if st.loadedEmitted then [] else [BioWorldEvent.LOADED]) ++
    BioWorldEvent.BEFORE_SIMULATION ::
      (List.replicate steps BioWorldEvent.STEP ++
        [BioWorldEvent.AFTER_SIMULATION]))

/-- The JSON object one `edgesToWiring` entry serializes to (the shape
`applyRawJson` writes back into the draft and later re-parses). -/
def canonEntry (w : WiringOut) : JVal :=
  .obj [("from".toList, .str w.from_), ("to".toList, .arr (w.to_.map JVal.str))]

/-- The JSON array `edgesToWiring` output serializes to. -/
def wiringToJson (ws : List WiringOut) : JVal := .arr (ws.map canonEntry)

/-- A reference string that splits cleanly back into the parts it was
built from: `parseRef` succeeds on it and re-concatenating the parts
gives the string back. -/
def GoodRef (k : List Char) : Prop :=
  ∃ r : RefParts, parseRef k = some r ∧ k = r.module ++ '.' :: r.port

/-- The invariant satisfied by every edge the wiring loops build: module
names are non-empty and dot-free, ports are non-empty. -/
def EdgeP (e : EdgeT) : Prop :=
  e.source ≠ [] ∧ '.' ∉ e.source ∧ e.sourceHandle ≠ [] ∧
  e.target ≠ [] ∧ '.' ∉ e.target ∧ e.targetHandle ≠ []

/-- The invariant satisfied by every entry of the grouped Map built from
well-formed edges: the key and all values split cleanly, and the value
set is non-empty. -/
def GoodGroup (p : List Char × List (List Char)) : Prop :=
  GoodRef p.1 ∧ p.2 ≠ [] ∧ ∀ v ∈ p.2, GoodRef v

lemma indexOfDot_eq_neg_one (s : List Char) (h : '.' ∉ s) : indexOfDot s = -1 := by
  induction s with
  | nil => rfl
  | cons c rest ih =>
      have hc : ¬ c = '.' := fun hc => h (hc ▸ List.mem_cons_self c rest)
      have hr : '.' ∉ rest := fun hr => h (List.mem_cons_of_mem c hr)
      simp [indexOfDot, hc, ih hr]

lemma indexOfDot_of_mem (s : List Char) (h : '.' ∈ s) :
    indexOfDot s = ((s.takeWhile (· != '.')).length : Int) := by
  induction s with
  | nil => cases h
  | cons c rest ih =>
      by_cases hc : c = '.'
      · subst hc
        simp [indexOfDot, List.takeWhile]
      · have hr : '.' ∈ rest := by
          rcases List.mem_cons.mp h with h1 | h1
          · exact absurd h1.symm hc
          · exact h1
        have hnn : (0 : Int) ≤ indexOfDot rest := by
          rw [ih hr]; exact Int.ofNat_nonneg _
        have hlt : ¬ indexOfDot rest < 0 := not_lt.mpr hnn
        have hbne : (c != '.') = true := by simp [bne_iff_ne, hc]
        simp only [indexOfDot, if_neg hc, ih hr,
          List.takeWhile, hbne, List.length_cons]
        rw [if_neg (not_lt.mpr (Int.ofNat_nonneg _))]
        push_cast
        ring

lemma dropWhile_dot (s : List Char) (h : '.' ∈ s) :
    s.dropWhile (· != '.') = '.' :: (s.dropWhile (· != '.')).tail := by
  induction s with
  | nil => cases h
  | cons c rest ih =>
      by_cases hc : c = '.'
      · subst hc; simp [List.dropWhile]
      · have hr : '.' ∈ rest := by
          rcases List.mem_cons.mp h with h1 | h1
          · exact absurd h1.symm hc
          · exact h1
        have hbne : (c != '.') = true := by simp [bne_iff_ne, hc]
        simp only [List.dropWhile, hbne]
        exact ih hr

/-- Characterization of `parseRef` in terms of the text before and after
the first dot. -/
lemma parseRef_eq_spec (s : List Char) :
    parseRef s =
      if '.' ∈ s ∧ s.takeWhile (· != '.') ≠ [] ∧ (s.dropWhile (· != '.')).tail ≠ []
      then some ⟨s.takeWhile (· != '.'), (s.dropWhile (· != '.')).tail⟩
      else none := by
  by_cases hmem : '.' ∈ s
  · set tw := s.takeWhile (· != '.') with htw
    set tl := (s.dropWhile (· != '.')).tail with htl
    have hsplit : tw ++ '.' :: tl = s := by
      rw [htw, htl, ← dropWhile_dot s hmem]
      exact List.takeWhile_append_dropWhile (p := (· != '.')) (l := s)
    have hidx : indexOfDot s = (tw.length : Int) := indexOfDot_of_mem s hmem
    have hlen : s.length = tw.length + 1 + tl.length := by
      rw [← hsplit]; simp; omega
    by_cases h0 : tw = []
    · have : indexOfDot s ≤ 0 := by rw [hidx, h0]; simp
      simp [parseRef, this, hmem, h0]
    · by_cases h1 : tl = []
      · have : (s.length : Int) - 1 ≤ indexOfDot s := by
          rw [hidx, hlen, h1]; push_cast; simp
        simp [parseRef, this, hmem, h1]
      · have htw0 : 0 < tw.length := List.length_pos.mpr h0
        have htl0 : 0 < tl.length := List.length_pos.mpr h1
        have hc1 : ¬ (indexOfDot s ≤ 0 ∨ (s.length : Int) - 1 ≤ indexOfDot s) := by
          rw [hidx, hlen]
          push_cast
          omega
        have htonat : (indexOfDot s).toNat = tw.length := by rw [hidx]; simp
        have htake : s.take tw.length = tw := by
          rw [← hsplit]; exact List.take_left tw ('.' :: tl)
        have hdrop : s.drop (tw.length + 1) = tl := by
          rw [← hsplit]
          have : tw.length + 1 = (tw ++ ['.']).length := by simp
          rw [this]
          have hassoc : tw ++ '.' :: tl = (tw ++ ['.']) ++ tl := by simp
          rw [hassoc]
          exact List.drop_left (tw ++ ['.']) tl
        simp only [parseRef, hc1, if_false, htonat, htake, hdrop]
        simp [hmem, h0, h1]
  · have hidx : indexOfDot s = -1 := indexOfDot_eq_neg_one s hmem
    have : indexOfDot s ≤ 0 := by rw [hidx]; norm_num
    simp [parseRef, this, hmem]

lemma takeWhile_append_dot (a b : List Char) (hd : '.' ∉ a) :
    (a ++ '.' :: b).takeWhile (· != '.') = a := by
  induction a with
  | nil => simp [List.takeWhile]
  | cons c rest ih =>
      have hc : ¬ c = '.' := fun hc => hd (hc ▸ List.mem_cons_self c rest)
      have hr : '.' ∉ rest := fun hr => hd (List.mem_cons_of_mem c hr)
      have hbne : (c != '.') = true := by simp [bne_iff_ne, hc]
      simp only [List.cons_append, List.takeWhile, hbne]
      exact congrArg (List.cons c) (ih hr)

lemma dropWhile_append_dot (a b : List Char) (hd : '.' ∉ a) :
    (a ++ '.' :: b).dropWhile (· != '.') = '.' :: b := by
  induction a with
  | nil => simp [List.dropWhile]
  | cons c rest ih =>
      have hc : ¬ c = '.' := fun hc => hd (hc ▸ List.mem_cons_self c rest)
      have hr : '.' ∉ rest := fun hr => hd (List.mem_cons_of_mem c hr)
      have hbne : (c != '.') = true := by simp [bne_iff_ne, hc]
      simp only [List.cons_append, List.dropWhile, hbne]
      exact ih hr

/-- On a reference of the shape `alias ++ "." ++ rest` with a non-empty,
dot-free alias and non-empty rest, `parseRef` succeeds and returns exactly
that split. -/
lemma parseRef_append (a b : List Char) (ha : a ≠ []) (hd : '.' ∉ a) (hb : b ≠ []) :
    parseRef (a ++ '.' :: b) = some ⟨a, b⟩ := by
  have htw := takeWhile_append_dot a b hd
  have hdw := dropWhile_append_dot a b hd
  have hmem : '.' ∈ a ++ '.' :: b := by simp
  rw [parseRef_eq_spec]
  simp [hmem, htw, hdw, ha, hb]

/-- If `parseRef` succeeds, the returned module alias is non-empty and
dot-free, and the returned port is non-empty. -/
lemma parseRef_some_props (s : List Char) (r : RefParts) (h : parseRef s = some r) :
    r.module ≠ [] ∧ '.' ∉ r.module ∧ r.port ≠ [] := by
  rw [parseRef_eq_spec] at h
  by_cases hc : '.' ∈ s ∧ s.takeWhile (· != '.') ≠ [] ∧ (s.dropWhile (· != '.')).tail ≠ []
  · rw [if_pos hc] at h
    obtain ⟨hmem, h0, h1⟩ := hc
    cases h
    refine ⟨h0, ?_, h1⟩
    intro hdot
    have := List.mem_takeWhile_imp hdot
    simp [bne_iff_ne] at this
  · rw [if_neg hc] at h
    cases h

/-- Claim C1: `parseRef` fails (returns no result) if and only if the
reference contains no dot, or the text before the first dot is empty, or
the text after the first dot is empty; on success it returns the text
before the first dot as the module alias and the remainder as the port. -/
theorem C1_parseRef_failure_iff (s : List Char) :
    (parseRef s = none ↔
        '.' ∉ s ∨ s.takeWhile (· != '.') = [] ∨ (s.dropWhile (· != '.')).tail = []) ∧
    (∀ r, parseRef s = some r →
        r.module = s.takeWhile (· != '.') ∧ r.port = (s.dropWhile (· != '.')).tail) := by
  rw [parseRef_eq_spec]
  by_cases hc : '.' ∈ s ∧ s.takeWhile (· != '.') ≠ [] ∧ (s.dropWhile (· != '.')).tail ≠ []
  · rw [if_pos hc]
    constructor
    · simp only [reduceCtorEq, false_iff]
      push_neg
      exact ⟨hc.1, hc.2.1, hc.2.2⟩
    · intro r hr
      cases hr
      exact ⟨rfl, rfl⟩
  · rw [if_neg hc]
    constructor
    · simp only [true_iff]
      by_contra hno
      push_neg at hno
      exact hc ⟨hno.1, hno.2.1, hno.2.2⟩
    · intro r hr
      cases hr

/-- Witness for C1 at the concrete reference `"eye.out.sig"`. -/
theorem C1_parseRef_failure_iff_witness :
    (⟨"eye".toList, "out.sig".toList⟩ : RefParts).module =
        ("eye.out.sig".toList).takeWhile (· != '.') ∧
    (⟨"eye".toList, "out.sig".toList⟩ : RefParts).port =
        (("eye.out.sig".toList).dropWhile (· != '.')).tail :=
  (C1_parseRef_failure_iff ("eye.out.sig".toList)).2
    ⟨"eye".toList, "out.sig".toList⟩ (by decide)

/-- Claim C2 counterexample: `parseRef` does not strip direction tokens —
`"a.out.p"` parses to port `"out.p"` while `"a.p"` parses to port `"p"`,
so the two references do not yield the same (module, port) pair. -/
theorem C2_direction_token_counterexample :
    parseRef ("a.out.p".toList) = some ⟨"a".toList, "out.p".toList⟩ ∧
    parseRef ("a.p".toList) = some ⟨"a".toList, "p".toList⟩ ∧
    parseRef ("a.out.p".toList) ≠ parseRef ("a.p".toList) :=
  ⟨by decide, by decide, by decide⟩

/-- Claim C2 amended: the direction token is kept as part of the port, not
stripped: for every non-empty dot-free alias `a` and non-empty port `p`,
`"a.out.p"` parses to `(a, "out.p")` whereas `"a.p"` parses to `(a, p)`,
and the two results differ. -/
theorem C2_amended_direction_token_kept (a p : List Char)
    (ha : a ≠ []) (hd : '.' ∉ a) (hp : p ≠ []) :
    parseRef (a ++ '.' :: 'o' :: 'u' :: 't' :: '.' :: p) =
      some ⟨a, 'o' :: 'u' :: 't' :: '.' :: p⟩ ∧
    parseRef (a ++ '.' :: p) = some ⟨a, p⟩ ∧
    parseRef (a ++ '.' :: 'o' :: 'u' :: 't' :: '.' :: p) ≠ parseRef (a ++ '.' :: p) := by
  have h1 : parseRef (a ++ '.' :: 'o' :: 'u' :: 't' :: '.' :: p) =
      some ⟨a, 'o' :: 'u' :: 't' :: '.' :: p⟩ :=
    parseRef_append a ('o' :: 'u' :: 't' :: '.' :: p) ha hd (by simp)
  have h2 : parseRef (a ++ '.' :: p) = some ⟨a, p⟩ := parseRef_append a p ha hd hp
  refine ⟨h1, h2, ?_⟩
  rw [h1, h2]
  intro heq
  have : ('o' :: 'u' :: 't' :: '.' :: p).length = p.length := by
    have := Option.some.inj heq
    have := congrArg RefParts.port this
    simp at this
    exact congrArg List.length this
  simp at this
  omega

lemma keep_eq_isNonNullObject (e : JVal) :
    (jsTruthy e && jsTypeofObject e) = isNonNullObject e := by
  cases e <;> simp [jsTruthy, jsTypeofObject, isNonNullObject]

/-- Claim C10: `normalizeWiring` throws `Wiring must be a JSON array.`
exactly when its argument is not an array, and for every array input it
returns, in the original order, exactly the entries that are non-null
objects. -/
theorem C10_normalizeWiring_spec (v : JVal) :
    (normalizeWiring v = .error "Wiring must be a JSON array." ↔
        ∀ xs, v ≠ JVal.arr xs) ∧
    (∀ xs, v = JVal.arr xs →
        normalizeWiring v = .ok (xs.filter (fun e => isNonNullObject e))) := by
  constructor
  · cases v <;> simp [normalizeWiring]
  · rintro xs rfl
    simp only [normalizeWiring]
    congr 1
    exact List.filter_congr (fun e _ => keep_eq_isNonNullObject e)

/-- Witness for C10 on a concrete mixed array: the two object-like
entries survive, everything else is dropped. -/
theorem C10_normalizeWiring_spec_witness :
    normalizeWiring (JVal.arr [JVal.null, JVal.num 1, JVal.obj [],
        JVal.str "x".toList, JVal.arr [], JVal.bool true]) =
      .ok [JVal.obj [], JVal.arr []] :=
  ((C10_normalizeWiring_spec _).2 _ rfl).trans rfl

/-- Claim C6 counterexample: a wiring entry whose `from` reference fails
to parse is skipped without any error being reported — `wiringToEdges`
returns a successful, empty edge list. -/
theorem C6_silent_skip_counterexample :
    parseRef ("bad".toList) = none ∧
    wiringToEdges (JVal.arr [JVal.obj [("from".toList, JVal.str "bad".toList),
        ("to".toList, JVal.arr [JVal.str "a.b".toList])]]) = .ok [] :=
  ⟨by decide, rfl⟩

/-- Claim C6 amended: in the frontend, malformed references are silently
dropped rather than reported: `wiringToEdges` never reports an error on an
array input, and an entry whose `from` reference fails to parse simply
contributes no edges. -/
theorem C6_amended_silent_skip :
    (∀ entries : List JVal, ∃ es, wiringToEdges (JVal.arr entries) = .ok es) ∧
    (∀ seq entry rest, parseRef (entryFrom entry) = none →
        wiringEdgesLoop seq (entry :: rest) = wiringEdgesLoop seq rest) := by
  constructor
  · intro entries
    exact ⟨_, rfl⟩
  · intro seq entry rest h
    simp [wiringEdgesLoop, h]

/-- Witness for the amended C6 at a concrete malformed entry. -/
theorem C6_amended_silent_skip_witness :
    wiringEdgesLoop 0 [JVal.obj [("from".toList, JVal.str "bad".toList)],
        JVal.obj [("from".toList, JVal.str "a.b".toList),
          ("to".toList, JVal.str "c.d".toList)]] =
      wiringEdgesLoop 0 [JVal.obj [("from".toList, JVal.str "a.b".toList),
        ("to".toList, JVal.str "c.d".toList)]] :=
  C6_amended_silent_skip.2 0 _ _ (by decide)

/-- Claim C3 counterexample: two edges added in the order
`b.y -> c.z`, `a.x -> c.z` are described sorted by source reference,
not in insertion order. -/
theorem C3_insertion_order_counterexample :
    edgesToWiring
        [⟨"e1".toList, "b".toList, "y".toList, "c".toList, "z".toList⟩,
         ⟨"e2".toList, "a".toList, "x".toList, "c".toList, "z".toList⟩] =
      [⟨"a.x".toList, ["c.z".toList]⟩, ⟨"b.y".toList, ["c.z".toList]⟩] ∧
    edgesToWiring
        [⟨"e1".toList, "b".toList, "y".toList, "c".toList, "z".toList⟩,
         ⟨"e2".toList, "a".toList, "x".toList, "c".toList, "z".toList⟩] ≠
      [⟨"b.y".toList, ["c.z".toList]⟩, ⟨"a.x".toList, ["c.z".toList]⟩] :=
  ⟨by decide, by decide⟩

/-- Claim C3 amended: `edgesToWiring` lists the committed entries sorted
ascending by source reference (with each target list itself sorted), not
in insertion order. -/
theorem C3_amended_describe_sorted (edges : List EdgeT) :
    List.Sorted (· ≤ ·) ((edgesToWiring edges).map (·.from_)) ∧
    ∀ w ∈ edgesToWiring edges, List.Sorted (· ≤ ·) w.to_ := by
  constructor
  · have hs := List.sorted_insertionSort (fun a b => a.1 ≤ b.1) (groupEdges edges)
    unfold edgesToWiring
    rw [List.map_map]
    exact (List.pairwise_map).mpr hs
  · intro w hw
    unfold edgesToWiring at hw
    rcases List.mem_map.mp hw with ⟨g, _, rfl⟩
    exact List.sorted_insertionSort _ g.2

/-- Witness for the amended C3 at a concrete two-edge list. -/
theorem C3_amended_describe_sorted_witness :
    List.Sorted (· ≤ ·) ((edgesToWiring
        [⟨"e1".toList, "b".toList, "y".toList, "c".toList, "z".toList⟩,
         ⟨"e2".toList, "a".toList, "x".toList, "c".toList, "z".toList⟩]).map
      (·.from_)) ∧
    List.Sorted (· ≤ ·) (⟨"a.x".toList, ["c.z".toList]⟩ : WiringOut).to_ :=
  ⟨(C3_amended_describe_sorted _).1,
   (C3_amended_describe_sorted
      [⟨"e1".toList, "b".toList, "y".toList, "c".toList, "z".toList⟩,
       ⟨"e2".toList, "a".toList, "x".toList, "c".toList, "z".toList⟩]).2
     ⟨"a.x".toList, ["c.z".toList]⟩ (by decide)⟩

lemma keysOf_insertGrouped (k v : List Char)
    (acc : List (List Char × List (List Char))) :
    keysOf (insertGrouped k v acc) =
      if k ∈ keysOf acc then keysOf acc else keysOf acc ++ [k] := by
  induction acc with
  | nil => simp [insertGrouped, keysOf]
  | cons p rest ih =>
      obtain ⟨k', vs⟩ := p
      by_cases hk : k' = k
      · subst hk
        simp [insertGrouped, keysOf]
      · have hne : ¬ k = k' := fun h => hk h.symm
        simp only [insertGrouped, if_neg hk, keysOf, List.map_cons] at ih ⊢
        rw [ih]
        by_cases hm : k ∈ List.map (·.1) rest
        · simp [hm, hne]
        · simp [hm, hne]

lemma nodup_append_singleton (l : List (List Char)) (a : List Char)
    (h : l.Nodup) (ha : a ∉ l) : (l ++ [a]).Nodup :=
  ((List.perm_append_singleton a l).nodup_iff).mpr (List.nodup_cons.mpr ⟨ha, h⟩)

lemma vals_nodup_insertGrouped (k v : List Char)
    (acc : List (List Char × List (List Char)))
    (h : ∀ p ∈ acc, p.2.Nodup) : ∀ p ∈ insertGrouped k v acc, p.2.Nodup := by
  induction acc with
  | nil =>
      intro p hp
      simp only [insertGrouped, List.mem_singleton] at hp
      subst hp
      simp
  | cons q rest ih =>
      obtain ⟨k', vs⟩ := q
      have hvs : vs.Nodup := h (k', vs) (List.mem_cons_self _ _)
      have hrest : ∀ p ∈ rest, p.2.Nodup :=
        fun q hq => h q (List.mem_cons_of_mem _ hq)
      intro p hp
      by_cases hk : k' = k
      · simp only [insertGrouped, if_pos hk, List.mem_cons] at hp
        rcases hp with hphead | hptail
        · subst hphead
          by_cases hv : v ∈ vs
          · simpa [hv] using hvs
          · simp only [if_neg hv]
            exact nodup_append_singleton vs v hvs hv
        · exact hrest p hptail
      · simp only [insertGrouped, if_neg hk, List.mem_cons] at hp
        rcases hp with hphead | hptail
        · subst hphead
          exact hvs
        · exact ih hrest p hptail

lemma keys_nodup_insertGrouped (k v : List Char)
    (acc : List (List Char × List (List Char)))
    (h : (keysOf acc).Nodup) : (keysOf (insertGrouped k v acc)).Nodup := by
  rw [keysOf_insertGrouped]
  by_cases hm : k ∈ keysOf acc
  · simpa [hm] using h
  · rw [if_neg hm]
    exact nodup_append_singleton _ k h hm

lemma memGrouped_insertGrouped_self (k v : List Char)
    (acc : List (List Char × List (List Char))) :
    memGrouped k v (insertGrouped k v acc) := by
  induction acc with
  | nil => exact ⟨[v], by simp [insertGrouped], by simp⟩
  | cons q rest ih =>
      obtain ⟨k', vs⟩ := q
      by_cases hk : k' = k
      · subst hk
        by_cases hv : v ∈ vs
        · exact ⟨vs, by simp [insertGrouped, hv], hv⟩
        · exact ⟨vs ++ [v], by simp [insertGrouped, hv], by simp⟩
      · obtain ⟨vs0, hmem, hv0⟩ := ih
        exact ⟨vs0, by simp [insertGrouped, if_neg hk, List.mem_cons, hmem], hv0⟩

lemma memGrouped_insertGrouped_of (k v k0 v0 : List Char)
    (acc : List (List Char × List (List Char)))
    (h : memGrouped k0 v0 acc) : memGrouped k0 v0 (insertGrouped k v acc) := by
  induction acc with
  | nil => rcases h with ⟨vs, hmem, _⟩; cases hmem
  | cons q rest ih =>
      obtain ⟨k', vs⟩ := q
      rcases h with ⟨vs0, hmem, hv0⟩
      rcases List.mem_cons.mp hmem with heq | htail
      · injection heq with h1 h2
        subst h1; subst h2
        by_cases hk : k0 = k
        · subst hk
          by_cases hv : v ∈ vs0
          · exact ⟨vs0, by simp [insertGrouped, hv], hv0⟩
          · exact ⟨vs0 ++ [v], by simp [insertGrouped, hv], by simp [hv0]⟩
        · have hk' : ¬ k0 = k := hk
          exact ⟨vs0, by simp [insertGrouped, hk'], hv0⟩
      · by_cases hk : k' = k
        · subst hk
          by_cases hv : v ∈ vs
          · exact ⟨vs0, by simp [insertGrouped, hv, List.mem_cons, htail], hv0⟩
          · exact ⟨vs0, by simp [insertGrouped, hv, List.mem_cons, htail], hv0⟩
        · obtain ⟨vs1, hmem1, hv1⟩ := ih ⟨vs0, htail, hv0⟩
          exact ⟨vs1, by simp [insertGrouped, if_neg hk, List.mem_cons, hmem1], hv1⟩

lemma insertGrouped_eq_of_mem (k v : List Char)
    (acc : List (List Char × List (List Char)))
    (hn : (keysOf acc).Nodup) (h : memGrouped k v acc) :
    insertGrouped k v acc = acc := by
  induction acc with
  | nil => rcases h with ⟨vs, hmem, _⟩; cases hmem
  | cons q rest ih =>
      obtain ⟨k', vs⟩ := q
      rcases h with ⟨vs0, hmem, hv0⟩
      have hn' : (keysOf rest).Nodup := (List.nodup_cons.mp hn).2
      have hknot : k' ∉ keysOf rest := (List.nodup_cons.mp hn).1
      rcases List.mem_cons.mp hmem with heq | htail
      · injection heq with h1 h2
        subst h1; subst h2
        simp [insertGrouped, hv0]
      · have hk : ¬ k' = k := by
          intro hkk
          subst hkk
          exact hknot (by simpa [keysOf] using List.mem_map_of_mem (·.1) htail)
        simp only [insertGrouped, if_neg hk]
        rw [ih hn' ⟨vs0, htail, hv0⟩]

lemma keys_nodup_foldl (edges : List EdgeT)
    (acc : List (List Char × List (List Char)))
    (h : (keysOf acc).Nodup) : (keysOf (edges.foldl groupStep acc)).Nodup := by
  induction edges generalizing acc with
  | nil => exact h
  | cons e rest ih =>
      rw [List.foldl_cons]
      refine ih _ ?_
      unfold groupStep
      by_cases hs : (e.sourceHandle.isEmpty || e.targetHandle.isEmpty) = true
      · simpa [hs] using h
      · rw [if_neg hs]
        exact keys_nodup_insertGrouped _ _ _ h

lemma vals_nodup_foldl (edges : List EdgeT)
    (acc : List (List Char × List (List Char)))
    (h : ∀ p ∈ acc, p.2.Nodup) : ∀ p ∈ edges.foldl groupStep acc, p.2.Nodup := by
  induction edges generalizing acc with
  | nil => exact h
  | cons e rest ih =>
      rw [List.foldl_cons]
      refine ih _ ?_
      unfold groupStep
      by_cases hs : (e.sourceHandle.isEmpty || e.targetHandle.isEmpty) = true
      · simpa [hs] using h
      · rw [if_neg hs]
        exact vals_nodup_insertGrouped _ _ _ h

lemma memGrouped_foldl_of (edges : List EdgeT)
    (acc : List (List Char × List (List Char))) (k v : List Char)
    (h : memGrouped k v acc) : memGrouped k v (edges.foldl groupStep acc) := by
  induction edges generalizing acc with
  | nil => exact h
  | cons e rest ih =>
      rw [List.foldl_cons]
      refine ih _ ?_
      unfold groupStep
      by_cases hs : (e.sourceHandle.isEmpty || e.targetHandle.isEmpty) = true
      · simpa [hs] using h
      · rw [if_neg hs]
        exact memGrouped_insertGrouped_of _ _ _ _ _ h

lemma memGrouped_foldl_of_memEdge (edges : List EdgeT)
    (acc : List (List Char × List (List Char))) (e : EdgeT) (he : e ∈ edges)
    (hs : (e.sourceHandle.isEmpty || e.targetHandle.isEmpty) = false) :
    memGrouped (e.source ++ '.' :: e.sourceHandle)
      (e.target ++ '.' :: e.targetHandle) (edges.foldl groupStep acc) := by
  induction edges generalizing acc with
  | nil => cases he
  | cons e' rest ih =>
      rw [List.foldl_cons]
      rcases List.mem_cons.mp he with rfl | htail
      · refine memGrouped_foldl_of _ _ _ _ ?_
        have hstep : groupStep acc e =
            insertGrouped (e.source ++ '.' :: e.sourceHandle)
              (e.target ++ '.' :: e.targetHandle) acc := by
          unfold groupStep
          rw [hs]
          simp
        rw [hstep]
        exact memGrouped_insertGrouped_self _ _ _
      · exact ih _ htail

/-- Claim C4: the committed wiring contains each (source reference,
destination reference) pair at most once: source entries are unique,
each target list is deduplicated, and appending an edge that is already
present leaves `edgesToWiring` unchanged. -/
theorem C4_pairs_at_most_once (edges : List EdgeT) :
    ((edgesToWiring edges).map (·.from_)).Nodup ∧
    (∀ w ∈ edgesToWiring edges, w.to_.Nodup) ∧
    (∀ e ∈ edges, edgesToWiring (edges ++ [e]) = edgesToWiring edges) := by
  refine ⟨?_, ?_, ?_⟩
  · unfold edgesToWiring
    rw [List.map_map]
    have hperm :
        ((List.insertionSort (fun a b => a.1 ≤ b.1) (groupEdges edges)).map
            (fun g => g.1)).Perm ((groupEdges edges).map (fun g => g.1)) :=
      (List.perm_insertionSort _ _).map _
    have hnd : ((groupEdges edges).map (fun g => g.1)).Nodup :=
      keys_nodup_foldl edges [] (by simp [keysOf])
    exact hperm.symm.nodup hnd
  · intro w hw
    unfold edgesToWiring at hw
    rcases List.mem_map.mp hw with ⟨g, hg, rfl⟩
    have hgmem : g ∈ groupEdges edges :=
      (List.perm_insertionSort (fun a b => a.1 ≤ b.1) (groupEdges edges)).mem_iff.mp hg
    have hnd : g.2.Nodup := vals_nodup_foldl edges [] (by simp) g hgmem
    exact ((List.perm_insertionSort (· ≤ ·) g.2).nodup_iff).mpr hnd
  · intro e he
    unfold edgesToWiring
    have hgrp : groupEdges (edges ++ [e]) = groupEdges edges := by
      unfold groupEdges
      rw [List.foldl_append, List.foldl_cons, List.foldl_nil]
      unfold groupStep
      by_cases hs : (e.sourceHandle.isEmpty || e.targetHandle.isEmpty) = true
      · rw [if_pos hs]
      · have hsf : (e.sourceHandle.isEmpty || e.targetHandle.isEmpty) = false := by
          simpa using hs
        rw [if_neg hs]
        exact insertGrouped_eq_of_mem _ _ _
          (keys_nodup_foldl edges [] (by simp [keysOf]))
          (memGrouped_foldl_of_memEdge edges [] e he hsf)
    rw [hgrp]

/-- Witness for C4 at a concrete duplicated edge list. -/
theorem C4_pairs_at_most_once_witness :
    edgesToWiring
        [⟨"e1".toList, "a".toList, "x".toList, "c".toList, "z".toList⟩,
         ⟨"e1".toList, "a".toList, "x".toList, "c".toList, "z".toList⟩] =
      edgesToWiring
        [⟨"e1".toList, "a".toList, "x".toList, "c".toList, "z".toList⟩] := by
  have h := (C4_pairs_at_most_once
      [⟨"e1".toList, "a".toList, "x".toList, "c".toList, "z".toList⟩]).2.2
      ⟨"e1".toList, "a".toList, "x".toList, "c".toList, "z".toList⟩ (by decide)
  exact h

/-- Witness for the amended C2 at alias `"a"`, port `"p"`. -/
theorem C2_amended_direction_token_kept_witness :
    parseRef ("a".toList ++ '.' :: 'o' :: 'u' :: 't' :: '.' :: "p".toList) =
      some ⟨"a".toList, 'o' :: 'u' :: 't' :: '.' :: "p".toList⟩ ∧
    parseRef ("a".toList ++ '.' :: "p".toList) = some ⟨"a".toList, "p".toList⟩ ∧
    parseRef ("a".toList ++ '.' :: 'o' :: 'u' :: 't' :: '.' :: "p".toList) ≠
      parseRef ("a".toList ++ '.' :: "p".toList) :=
  C2_amended_direction_token_kept ("a".toList) ("p".toList)
    (by decide) (by decide) (by decide)

/-- Claim C5: committing the raw JSON draft is atomic on failure: if the
draft does not parse, or normalizing it throws, the wiring control, the
last-applied text and the stored copy are left unchanged and only the
parse error is recorded (with the raw editor kept open). -/
theorem C5_applyRawJson_atomic (st : PanelState) (d : Except (List Char) JVal) :
    (∀ msg, d = .error msg →
        applyRawJson d st =
          { st with parseError := some msg, isExpanded := true, showRaw := true }) ∧
    (∀ v msg, d = .ok v → wiringToEdges v = .error msg →
        applyRawJson d st =
          { st with parseError := some msg.toList, isExpanded := true, showRaw := true }) := by
  constructor
  · rintro msg rfl
    rfl
  · rintro v msg rfl hv
    simp [applyRawJson, hv]

/-- Witness for C5: applying a draft that parses to the number 3 (not an
array) records the error and changes nothing else. -/
theorem C5_applyRawJson_atomic_witness :
    applyRawJson (.ok (JVal.num 3))
        ⟨"[]".toList, none, false, false, "[]".toList, none⟩ =
      ⟨"[]".toList, some ("Wiring must be a JSON array.".toList), true, true,
        "[]".toList, none⟩ :=
  (C5_applyRawJson_atomic ⟨"[]".toList, none, false, false, "[]".toList, none⟩
      (.ok (JVal.num 3))).2
    (JVal.num 3) "Wiring must be a JSON array." rfl rfl

lemma fixedStepRun_eq (n : Nat) (dt t : ℚ) (i : Nat) :
    fixedStepRun n dt t i =
      (List.range n).map (fun j => ⟨i + j, t + (j + 1 : ℚ) * dt⟩) := by
  induction n generalizing t i with
  | zero => simp [fixedStepRun]
  | succ m ih =>
      rw [fixedStepRun, ih, List.range_succ_eq_map, List.map_cons, List.map_map]
      congr 1
      · simp
      · apply List.map_congr_left
        intro j hj
        simp only [Function.comp_apply]
        congr 1
        · omega
        · push_cast
          ring

lemma fixedStepFinalTime_eq (n : Nat) (dt t : ℚ) :
    fixedStepFinalTime n dt t = t + n * dt := by
  induction n generalizing t with
  | zero => simp [fixedStepFinalTime]
  | succ m ih =>
      rw [fixedStepFinalTime, ih]
      push_cast
      ring

/-- Claim C7: for every steps = N ≥ 0 and dt > 0, the fixed-step solver
emits exactly N STEP events, with zero-based indices 0..N-1 in increasing
order, the j-th payload carrying time (j+1)·dt, and returns the summary
(steps = N, time = N·dt), exactly over ℚ. -/
theorem C7_fixed_solver_contract (N : Nat) (dt : ℚ) (hdt : 0 < dt) :
    ((FixedStepSolver.simulate N dt).1.length = N) ∧
    ((FixedStepSolver.simulate N dt).1.map (·.i) = List.range N) ∧
    (∀ j, j < N → (FixedStepSolver.simulate N dt).1.get? j =
        some ⟨j, ((j : ℚ) + 1) * dt⟩) ∧
    (FixedStepSolver.simulate N dt).2 = ⟨N, N * dt⟩ := by
  have hrun : (FixedStepSolver.simulate N dt).1 =
      (List.range N).map (fun j => ⟨j, ((j : ℚ) + 1) * dt⟩) := by
    show fixedStepRun N dt 0 0 = _
    rw [fixedStepRun_eq]
    apply List.map_congr_left
    intro j hj
    show (⟨0 + j, 0 + ((j : ℚ) + 1) * dt⟩ : StepEvent) = ⟨j, ((j : ℚ) + 1) * dt⟩
    rw [Nat.zero_add, zero_add]
  refine ⟨?_, ?_, ?_, ?_⟩
  · rw [hrun]
    simp
  · rw [hrun, List.map_map]
    have hcomp : ((fun e : StepEvent => e.i) ∘
        fun j : Nat => (⟨j, ((j : ℚ) + 1) * dt⟩ : StepEvent)) = id := rfl
    rw [hcomp, List.map_id]
  · intro j hj
    rw [hrun, List.get?_map, List.get?_range hj]
    rfl
  · show (⟨N, fixedStepFinalTime N dt 0⟩ : SimSummary) = ⟨N, N * dt⟩
    rw [fixedStepFinalTime_eq]
    norm_num

/-- Witness for C7 at steps = 3, dt = 1/10, matching the documented
example trace. -/
theorem C7_fixed_solver_contract_witness :
    ((FixedStepSolver.simulate 3 (1/10)).1.length = 3) ∧
    ((FixedStepSolver.simulate 3 (1/10)).1.map (·.i) = List.range 3) ∧
    (∀ j, j < 3 → (FixedStepSolver.simulate 3 (1/10)).1.get? j =
        some ⟨j, ((j : ℚ) + 1) * (1/10)⟩) ∧
    (FixedStepSolver.simulate 3 (1/10)).2 = ⟨3, 3 * (1/10)⟩ :=
  C7_fixed_solver_contract 3 (1/10) (by norm_num)

/-- Claim C8: across two consecutive simulate calls on a fresh World,
LOADED is observed exactly once and before any other event, while
BEFORE_SIMULATION and AFTER_SIMULATION occur once per call. -/
theorem C8_loaded_once_per_world (n m : Nat) :
    (((BioWorld.simulate ⟨false⟩ n).2 ++
        (BioWorld.simulate (BioWorld.simulate ⟨false⟩ n).1 m).2).count
      BioWorldEvent.LOADED = 1) ∧
    (((BioWorld.simulate ⟨false⟩ n).2 ++
        (BioWorld.simulate (BioWorld.simulate ⟨false⟩ n).1 m).2).head? =
      some BioWorldEvent.LOADED) ∧
    ((BioWorld.simulate ⟨false⟩ n).2.count BioWorldEvent.BEFORE_SIMULATION = 1) ∧
    ((BioWorld.simulate (BioWorld.simulate ⟨false⟩ n).1 m).2.count
      BioWorldEvent.BEFORE_SIMULATION = 1) ∧
    ((BioWorld.simulate ⟨false⟩ n).2.count BioWorldEvent.AFTER_SIMULATION = 1) ∧
    ((BioWorld.simulate (BioWorld.simulate ⟨false⟩ n).1 m).2.count
      BioWorldEvent.AFTER_SIMULATION = 1) := by
  refine ⟨?_, ?_, ?_, ?_, ?_, ?_⟩ <;>
    simp [BioWorld.simulate, List.count_append, List.count_cons,
      List.count_replicate, List.count_singleton]

lemma goodRef_build (m p : List Char) (hm : m ≠ []) (hd : '.' ∉ m)
    (hp : p ≠ []) : GoodRef (m ++ '.' :: p) :=
  ⟨⟨m, p⟩, parseRef_append m p hm hd hp, rfl⟩

lemma goodRef_elim (k : List Char) (h : GoodRef k) :
    ∃ r : RefParts, parseRef k = some r ∧ k = r.module ++ '.' :: r.port ∧
      r.module ≠ [] ∧ '.' ∉ r.module ∧ r.port ≠ [] := by
  obtain ⟨r, hp, hk⟩ := h
  obtain ⟨h1, h2, h3⟩ := parseRef_some_props k r hp
  exact ⟨r, hp, hk, h1, h2, h3⟩

lemma dstEdges_P (src : RefParts) (srcRef : List Char) (seq : Nat)
    (refs : List JVal)
    (hm : src.module ≠ []) (hd : '.' ∉ src.module) (hp : src.port ≠ []) :
    ∀ e ∈ (dstEdges src srcRef seq refs).2, EdgeP e := by
  induction refs generalizing seq with
  | nil =>
      intro e he
      simp [dstEdges] at he
  | cons r rest ih =>
      intro e he
      cases r with
      | str dstRef =>
          have he' : e ∈ (match parseRef dstRef with
              | none => dstEdges src srcRef seq rest
              | some dst =>
                  let e' : EdgeT := ⟨mkEdgeId (seq + 1) srcRef dstRef,
                    src.module, src.port, dst.module, dst.port⟩
                  let r' := dstEdges src srcRef (seq + 1) rest
                  (r'.1, e' :: r'.2)).2 := he
          cases hpr : parseRef dstRef with
          | none =>
              rw [hpr] at he'
              exact ih seq e he'
          | some dst =>
              rw [hpr] at he'
              simp only at he'
              rcases List.mem_cons.mp he' with rfl | htail
              · obtain ⟨h1, h2, h3⟩ := parseRef_some_props dstRef dst hpr
                exact ⟨hm, hd, hp, h1, h2, h3⟩
              · exact ih (seq + 1) e htail
      | null => exact ih seq e he
      | bool b => exact ih seq e he
      | num x => exact ih seq e he
      | arr xs => exact ih seq e he
      | obj fs => exact ih seq e he

lemma wiringEdgesLoop_P (entries : List JVal) (seq : Nat) :
    ∀ e ∈ wiringEdgesLoop seq entries, EdgeP e := by
  induction entries generalizing seq with
  | nil => simp [wiringEdgesLoop]
  | cons entry rest ih =>
      intro e he
      rw [wiringEdgesLoop] at he
      cases hpr : parseRef (entryFrom entry) with
      | none =>
          rw [hpr] at he
          exact ih seq e he
      | some src =>
          rw [hpr] at he
          simp only at he
          rcases List.mem_append.mp he with h1 | h2
          · obtain ⟨h1', h2', h3'⟩ := parseRef_some_props _ src hpr
            exact dstEdges_P src _ seq _ h1' h2' h3' e h1
          · exact ih _ e h2

lemma goodGroup_insertGrouped (k v : List Char)
    (acc : List (List Char × List (List Char)))
    (hacc : ∀ p ∈ acc, GoodGroup p) (hk : GoodRef k) (hv : GoodRef v) :
    ∀ p ∈ insertGrouped k v acc, GoodGroup p := by
  induction acc with
  | nil =>
      intro p hp
      simp only [insertGrouped, List.mem_singleton] at hp
      subst hp
      exact ⟨hk, by simp, by simp [hv]⟩
  | cons q rest ih =>
      obtain ⟨k', vs⟩ := q
      have hhead : GoodGroup (k', vs) := hacc _ (List.mem_cons_self _ _)
      have hrest : ∀ p ∈ rest, GoodGroup p :=
        fun p hp => hacc p (List.mem_cons_of_mem _ hp)
      intro p hp
      by_cases hkk : k' = k
      · simp only [insertGrouped, if_pos hkk, List.mem_cons] at hp
        rcases hp with hphead | hptail
        · subst hphead
          refine ⟨hhead.1, ?_, ?_⟩
          · by_cases hvv : v ∈ vs
            · simpa [hvv] using hhead.2.1
            · simp [hvv]
          · intro v' hv'
            by_cases hvv : v ∈ vs
            · exact hhead.2.2 v' (by simpa [hvv] using hv')
            · simp only [if_neg hvv] at hv'
              rcases List.mem_append.mp hv' with h1 | h1
              · exact hhead.2.2 v' h1
              · rw [List.mem_singleton.mp h1]
                exact hv
        · exact hrest p hptail
      · simp only [insertGrouped, if_neg hkk, List.mem_cons] at hp
        rcases hp with hphead | hptail
        · subst hphead
          exact hhead
        · exact ih hrest p hptail

lemma goodGroup_foldl (edges : List EdgeT)
    (acc : List (List Char × List (List Char)))
    (hacc : ∀ p ∈ acc, GoodGroup p) (hP : ∀ e ∈ edges, EdgeP e) :
    ∀ p ∈ edges.foldl groupStep acc, GoodGroup p := by
  induction edges generalizing acc with
  | nil => exact hacc
  | cons e rest ih =>
      rw [List.foldl_cons]
      have hPe : EdgeP e := hP e (List.mem_cons_self _ _)
      have hPr : ∀ e' ∈ rest, EdgeP e' :=
        fun e' he' => hP e' (List.mem_cons_of_mem _ he')
      refine ih _ ?_ hPr
      unfold groupStep
      by_cases hs : (e.sourceHandle.isEmpty || e.targetHandle.isEmpty) = true
      · simpa [hs] using hacc
      · rw [if_neg hs]
        obtain ⟨q1, q2, q3, q4, q5, q6⟩ := hPe
        exact goodGroup_insertGrouped _ _ _ hacc
          (goodRef_build _ _ q1 q2 q3) (goodRef_build _ _ q4 q5 q6)

lemma edgesToWiring_keys_sorted (edges : List EdgeT) :
    List.Sorted (· ≤ ·) ((edgesToWiring edges).map (·.from_)) := by
  have hs := List.sorted_insertionSort (fun a b => a.1 ≤ b.1) (groupEdges edges)
  unfold edgesToWiring
  rw [List.map_map]
  exact (List.pairwise_map).mpr hs

lemma edgesToWiring_keys_nodup (edges : List EdgeT) :
    ((edgesToWiring edges).map (·.from_)).Nodup := by
  unfold edgesToWiring
  rw [List.map_map]
  have hperm :
      ((List.insertionSort (fun a b => a.1 ≤ b.1) (groupEdges edges)).map
          (fun g => g.1)).Perm ((groupEdges edges).map (fun g => g.1)) :=
    (List.perm_insertionSort _ _).map _
  have hnd : ((groupEdges edges).map (fun g => g.1)).Nodup :=
    keys_nodup_foldl edges [] (by simp [keysOf])
  exact hperm.symm.nodup hnd

lemma edgesToWiring_good (edges : List EdgeT) (hP : ∀ e ∈ edges, EdgeP e) :
    ∀ w ∈ edgesToWiring edges, GoodRef w.from_ ∧ w.to_ ≠ [] ∧ w.to_.Nodup ∧
      List.Sorted (· ≤ ·) w.to_ ∧ ∀ v ∈ w.to_, GoodRef v := by
  intro w hw
  unfold edgesToWiring at hw
  rcases List.mem_map.mp hw with ⟨g, hg, rfl⟩
  have hgm : g ∈ groupEdges edges :=
    (List.perm_insertionSort (fun a b => a.1 ≤ b.1) (groupEdges edges)).mem_iff.mp hg
  have hgood : GoodGroup g := goodGroup_foldl edges [] (by simp) hP g hgm
  have hperm := List.perm_insertionSort (· ≤ ·) g.2
  refine ⟨hgood.1, ?_, ?_, List.sorted_insertionSort _ _, ?_⟩
  · intro hnil
    have h2 : List.insertionSort (· ≤ ·) g.2 = [] := hnil
    have h3 : g.2 = [] := by
      have hp2 := hperm
      rw [h2] at hp2
      exact hp2.symm.eq_nil
    exact hgood.2.1 h3
  · exact (hperm.nodup_iff).mpr (vals_nodup_foldl edges [] (by simp) g hgm)
  · intro v hv
    exact hgood.2.2 v (hperm.mem_iff.mp hv)

lemma entryFrom_canon (w : WiringOut) : entryFrom (canonEntry w) = w.from_ := rfl

lemma entryDstRefs_canon (w : WiringOut) :
    entryDstRefs (canonEntry w) = w.to_.map JVal.str := rfl

lemma normalizeWiring_canon (ws : List WiringOut) :
    normalizeWiring (wiringToJson ws) = .ok (ws.map canonEntry) := by
  show Except.ok ((ws.map canonEntry).filter
      (fun e => jsTruthy e && jsTypeofObject e)) = _
  congr 1
  apply List.filter_eq_self.mpr
  intro a ha
  rcases List.mem_map.mp ha with ⟨w, _, rfl⟩
  rfl

lemma insertGrouped_fresh (k v : List Char)
    (acc : List (List Char × List (List Char))) (hk : k ∉ keysOf acc) :
    insertGrouped k v acc = acc ++ [(k, [v])] := by
  induction acc with
  | nil => rfl
  | cons q rest ih =>
      obtain ⟨k', vs⟩ := q
      have hne : ¬ k' = k := by
        intro h
        exact hk (by simp [keysOf, h])
      have hkr : k ∉ keysOf rest := fun h => hk (by simp [keysOf] at h ⊢; tauto)
      simp [insertGrouped, hne, ih hkr]

lemma insertGrouped_last (k v : List Char)
    (pre : List (List Char × List (List Char))) (us : List (List Char))
    (hk : k ∉ keysOf pre) (hv : v ∉ us) :
    insertGrouped k v (pre ++ [(k, us)]) = pre ++ [(k, us ++ [v])] := by
  induction pre with
  | nil => simp [insertGrouped, hv]
  | cons q rest ih =>
      obtain ⟨k', vs⟩ := q
      have hne : ¬ k' = k := by
        intro h
        exact hk (by simp [keysOf, h])
      have hkr : k ∉ keysOf rest := fun h => hk (by simp [keysOf] at h ⊢; tauto)
      simp [insertGrouped, hne, ih hkr]

lemma groupStep_insert (acc : List (List Char × List (List Char)))
    (idv s sh t th : List Char) (hsh : sh ≠ []) (hth : th ≠ []) :
    groupStep acc ⟨idv, s, sh, t, th⟩ =
      insertGrouped (s ++ '.' :: sh) (t ++ '.' :: th) acc := by
  unfold groupStep
  have hb : ((⟨idv, s, sh, t, th⟩ : EdgeT).sourceHandle.isEmpty ||
      (⟨idv, s, sh, t, th⟩ : EdgeT).targetHandle.isEmpty) = false := by
    cases hsp : sh with
    | nil => exact absurd hsp hsh
    | cons a l =>
        cases hrp : th with
        | nil => exact absurd hrp hth
        | cons b m =>
            subst hsp
            subst hrp
            rfl
  rw [hb]
  simp

lemma foldl_groupStep_dstEdges (src : RefParts) (srcRef : List Char)
    (seq : Nat) (vs us : List (List Char))
    (pre : List (List Char × List (List Char)))
    (hport : src.port ≠ [])
    (hvs : ∀ v ∈ vs, GoodRef v)
    (hfresh : (src.module ++ '.' :: src.port) ∉ keysOf pre)
    (hnodup : (us ++ vs).Nodup) :
    List.foldl groupStep (pre ++ [(src.module ++ '.' :: src.port, us)])
        (dstEdges src srcRef seq (vs.map JVal.str)).2 =
      pre ++ [(src.module ++ '.' :: src.port, us ++ vs)] := by
  induction vs generalizing seq us with
  | nil => simp [dstEdges]
  | cons v rest ih =>
      obtain ⟨rv, hprv, hveq, _, _, hpv⟩ :=
        goodRef_elim v (hvs v (List.mem_cons_self _ _))
      have hshape : (dstEdges src srcRef seq (JVal.str v :: rest.map JVal.str)).2 =
          (⟨mkEdgeId (seq + 1) srcRef v, src.module, src.port,
              rv.module, rv.port⟩ : EdgeT) ::
            (dstEdges src srcRef (seq + 1) (rest.map JVal.str)).2 := by
        have hmatch : dstEdges src srcRef seq (JVal.str v :: rest.map JVal.str) =
            (match parseRef v with
            | none => dstEdges src srcRef seq (rest.map JVal.str)
            | some dst =>
                let e' : EdgeT := ⟨mkEdgeId (seq + 1) srcRef v,
                  src.module, src.port, dst.module, dst.port⟩
                let r' := dstEdges src srcRef (seq + 1) (rest.map JVal.str)
                (r'.1, e' :: r'.2)) := rfl
        rw [hmatch, hprv]
      have hv_not_us : v ∉ us := by
        rw [List.nodup_append] at hnodup
        exact fun hvus => (hnodup.2.2 hvus) (List.mem_cons_self v rest)
      rw [List.map_cons, hshape, List.foldl_cons,
        groupStep_insert _ _ _ _ _ _ hport hpv,
        show rv.module ++ '.' :: rv.port = v from hveq.symm,
        insertGrouped_last _ _ pre us hfresh hv_not_us]
      have hnodup' : ((us ++ [v]) ++ rest).Nodup := by
        rw [List.append_assoc]
        exact hnodup
      have hvs' : ∀ v' ∈ rest, GoodRef v' :=
        fun v' hv' => hvs v' (List.mem_cons_of_mem _ hv')
      rw [ih (seq + 1) (us ++ [v]) hvs' hnodup', List.append_assoc]
      rfl

lemma foldl_groupStep_dstEdges_start (src : RefParts) (srcRef : List Char)
    (seq : Nat) (vs : List (List Char))
    (acc : List (List Char × List (List Char)))
    (hport : src.port ≠ [])
    (hvs : ∀ v ∈ vs, GoodRef v)
    (hfresh : (src.module ++ '.' :: src.port) ∉ keysOf acc)
    (hnodup : vs.Nodup) (hne : vs ≠ []) :
    List.foldl groupStep acc (dstEdges src srcRef seq (vs.map JVal.str)).2 =
      acc ++ [(src.module ++ '.' :: src.port, vs)] := by
  cases vs with
  | nil => exact absurd rfl hne
  | cons v rest =>
      obtain ⟨rv, hprv, hveq, _, _, hpv⟩ :=
        goodRef_elim v (hvs v (List.mem_cons_self _ _))
      have hshape : (dstEdges src srcRef seq (JVal.str v :: rest.map JVal.str)).2 =
          (⟨mkEdgeId (seq + 1) srcRef v, src.module, src.port,
              rv.module, rv.port⟩ : EdgeT) ::
            (dstEdges src srcRef (seq + 1) (rest.map JVal.str)).2 := by
        have hmatch : dstEdges src srcRef seq (JVal.str v :: rest.map JVal.str) =
            (match parseRef v with
            | none => dstEdges src srcRef seq (rest.map JVal.str)
            | some dst =>
                let e' : EdgeT := ⟨mkEdgeId (seq + 1) srcRef v,
                  src.module, src.port, dst.module, dst.port⟩
                let r' := dstEdges src srcRef (seq + 1) (rest.map JVal.str)
                (r'.1, e' :: r'.2)) := rfl
        rw [hmatch, hprv]
      rw [List.map_cons, hshape, List.foldl_cons,
        groupStep_insert _ _ _ _ _ _ hport hpv,
        show rv.module ++ '.' :: rv.port = v from hveq.symm,
        insertGrouped_fresh _ _ _ hfresh]
      have hvs' : ∀ v' ∈ rest, GoodRef v' :=
        fun v' hv' => hvs v' (List.mem_cons_of_mem _ hv')
      exact foldl_groupStep_dstEdges src srcRef (seq + 1) rest [v] acc
        hport hvs' hfresh hnodup

lemma wiringEdgesLoop_canon_cons (w : WiringOut) (ws : List JVal) (seq : Nat)
    (r : RefParts) (hpr : parseRef w.from_ = some r) :
    wiringEdgesLoop seq (canonEntry w :: ws) =
      (dstEdges r w.from_ seq (w.to_.map JVal.str)).2 ++
        wiringEdgesLoop (dstEdges r w.from_ seq (w.to_.map JVal.str)).1 ws := by
  rw [wiringEdgesLoop, entryFrom_canon, entryDstRefs_canon, hpr]

/-- The grouping pass recovers exactly the entries it was built from:
canonical entries with distinct, clean keys and value lists pass through
the edge-building loop and the Map unchanged. -/
lemma foldl_groupStep_loop (ws : List WiringOut) (seq : Nat)
    (acc : List (List Char × List (List Char)))
    (hgood : ∀ w ∈ ws, GoodRef w.from_ ∧ w.to_ ≠ [] ∧ w.to_.Nodup ∧
        ∀ v ∈ w.to_, GoodRef v)
    (hkeys : (ws.map (·.from_)).Nodup)
    (hacc : ∀ w ∈ ws, w.from_ ∉ keysOf acc) :
    List.foldl groupStep acc (wiringEdgesLoop seq (ws.map canonEntry)) =
      acc ++ ws.map (fun w => (w.from_, w.to_)) := by
  induction ws generalizing seq acc with
  | nil => simp [wiringEdgesLoop]
  | cons w rest ih =>
      obtain ⟨hgw, hne, hnd, hvals⟩ := hgood w (List.mem_cons_self _ _)
      obtain ⟨r, hpr, hkeq, hm, hdm, hp⟩ := goodRef_elim w.from_ hgw
      rw [List.map_cons, wiringEdgesLoop_canon_cons w _ seq r hpr,
        List.foldl_append]
      have hfresh : (r.module ++ '.' :: r.port) ∉ keysOf acc := by
        rw [← hkeq]
        exact hacc w (List.mem_cons_self _ _)
      have hblock : List.foldl groupStep acc
          (dstEdges r w.from_ seq (w.to_.map JVal.str)).2 =
          acc ++ [(w.from_, w.to_)] := by
        have := foldl_groupStep_dstEdges_start r w.from_ seq w.to_ acc
          hp hvals hfresh hnd hne
        rwa [← hkeq] at this
      rw [hblock]
      have hgood' : ∀ w' ∈ rest, GoodRef w'.from_ ∧ w'.to_ ≠ [] ∧
          w'.to_.Nodup ∧ ∀ v ∈ w'.to_, GoodRef v :=
        fun w' hw' => hgood w' (List.mem_cons_of_mem _ hw')
      have hkeys' : (rest.map (·.from_)).Nodup := (List.nodup_cons.mp hkeys).2
      have hacc' : ∀ w' ∈ rest, w'.from_ ∉ keysOf (acc ++ [(w.from_, w.to_)]) := by
        intro w' hw' hmem
        have hkw : keysOf (acc ++ [(w.from_, w.to_)]) =
            keysOf acc ++ [w.from_] := by simp [keysOf]
        rw [hkw] at hmem
        rcases List.mem_append.mp hmem with h1 | h1
        · exact hacc w' (List.mem_cons_of_mem _ hw') h1
        · have heq : w'.from_ = w.from_ := List.mem_singleton.mp h1
          have hmem2 : w.from_ ∈ rest.map (·.from_) := by
            rw [← heq]
            exact List.mem_map_of_mem (·.from_) hw'
          exact (List.nodup_cons.mp hkeys).1 hmem2
      rw [ih _ _ hgood' hkeys' hacc']
      simp

/-- Claim C9: wiring normalization is idempotent: if normalizing a wiring
value w succeeds with result n, then normalizing the JSON document n
serializes to returns n unchanged — grouped, sorted, deduplicated wirings
are fixed points of edgesToWiring composed with wiringToEdges. -/
theorem C9_normalization_idempotent (w : JVal) (n : List WiringOut)
    (h : (wiringToEdges w).map edgesToWiring = .ok n) :
    (wiringToEdges (wiringToJson n)).map edgesToWiring = .ok n := by
  cases w with
  | arr xs =>
      have hn : n = edgesToWiring (wiringEdgesLoop 0
          (xs.filter (fun e => jsTruthy e && jsTypeofObject e))) := by
        have h' : Except.ok (edgesToWiring (wiringEdgesLoop 0
            (xs.filter (fun e => jsTruthy e && jsTypeofObject e)))) =
            (Except.ok n : Except String (List WiringOut)) := h
        exact (Except.ok.inj h').symm
      have hP : ∀ e ∈ wiringEdgesLoop 0
          (xs.filter (fun e => jsTruthy e && jsTypeofObject e)), EdgeP e :=
        wiringEdgesLoop_P _ 0
      have hgoodn : ∀ w' ∈ n, GoodRef w'.from_ ∧ w'.to_ ≠ [] ∧ w'.to_.Nodup ∧
          List.Sorted (· ≤ ·) w'.to_ ∧ ∀ v ∈ w'.to_, GoodRef v := by
        rw [hn]
        exact edgesToWiring_good _ hP
      have hkeysnd : (n.map (·.from_)).Nodup := by
        rw [hn]
        exact edgesToWiring_keys_nodup _
      have hkeyssrt : List.Sorted (· ≤ ·) (n.map (·.from_)) := by
        rw [hn]
        exact edgesToWiring_keys_sorted _
      have hgrp : groupEdges (wiringEdgesLoop 0 (n.map canonEntry)) =
          n.map (fun w' => (w'.from_, w'.to_)) := by
        unfold groupEdges
        have := foldl_groupStep_loop n 0 []
          (fun w' hw' => ⟨(hgoodn w' hw').1, (hgoodn w' hw').2.1,
            (hgoodn w' hw').2.2.1, (hgoodn w' hw').2.2.2.2⟩)
          hkeysnd (by simp [keysOf])
        simpa using this
      have hw2e : wiringToEdges (wiringToJson n) =
          .ok (wiringEdgesLoop 0 (n.map canonEntry)) := by
        unfold wiringToEdges
        rw [normalizeWiring_canon]
      have hsortpairs : List.Pairwise
          (fun a b : List Char × List (List Char) => a.1 ≤ b.1)
          (n.map (fun w' => (w'.from_, w'.to_))) := by
        rw [List.pairwise_map]
        exact (List.pairwise_map).mp hkeyssrt
      have hE : edgesToWiring (wiringEdgesLoop 0 (n.map canonEntry)) = n := by
        unfold edgesToWiring
        rw [hgrp, List.Sorted.insertionSort_eq hsortpairs, List.map_map]
        have helem : ∀ w' ∈ n,
            ((fun g : List Char × List (List Char) =>
                (⟨g.1, List.insertionSort (· ≤ ·) g.2⟩ : WiringOut)) ∘
              fun w'' => (w''.from_, w''.to_)) w' = id w' := by
          intro w' hw'
          show (⟨w'.from_, List.insertionSort (· ≤ ·) w'.to_⟩ : WiringOut) = w'
          rw [List.Sorted.insertionSort_eq (hgoodn w' hw').2.2.2.1]
        rw [List.map_congr_left helem, List.map_id]
      rw [hw2e]
      show Except.ok (edgesToWiring (wiringEdgesLoop 0 (n.map canonEntry))) =
        Except.ok n
      rw [hE]
  | null => simp [wiringToEdges, normalizeWiring, Except.map] at h
  | bool b => simp [wiringToEdges, normalizeWiring, Except.map] at h
  | num x => simp [wiringToEdges, normalizeWiring, Except.map] at h
  | str s => simp [wiringToEdges, normalizeWiring, Except.map] at h
  | obj fs => simp [wiringToEdges, normalizeWiring, Except.map] at h

/-- Witness for C9 at a concrete one-entry wiring. -/
theorem C9_normalization_idempotent_witness :
    (wiringToEdges (wiringToJson [⟨"a.x".toList, ["c.z".toList]⟩])).map
        edgesToWiring =
      .ok [⟨"a.x".toList, ["c.z".toList]⟩] :=
  C9_normalization_idempotent
    (JVal.arr [canonEntry ⟨"a.x".toList, ["c.z".toList]⟩])
    [⟨"a.x".toList, ["c.z".toList]⟩] rfl

end BiosimSpec
